import Mathlib

/-!
Verification of `station_uptime.py`, a batch tool that parses a two-section
text file of charging stations and availability reports and computes a
floored uptime percentage per station.

Embedding conventions:
* Python `int` is `Int`; `u64`/`u32` bounds appear as explicit range checks,
  exactly as in the source.
* Python `str` is modelled as `List Char` (`PyStr`); error messages are Lean
  `String`s built by concatenation, mirroring the f-strings of the source.
* Python `dict` (insertion ordered, last write wins) is modelled as an
  association list to which fresh entries are appended; lookups scan from
  the most recent entry.
* `sorted(intervals)` sorts pairs lexicographically; since the
  lexicographic order on pairs is total and antisymmetric, the sorted
  permutation is unique, and we realise it with `List.insertionSort`.
* Fallible code returns `Except String` / `Option`.
-/

namespace StationUptime

abbrev Interval := Int × Int

/-- chargerID, startTime, endTime, isUp -/
abbrev Report := Int × Int × Int × Bool

/-- The lexicographic order on pairs used by Python `sorted` on 2-tuples. -/
def lexLE (a b : Interval) : Prop :=
  a.1 < b.1 ∨ (a.1 = b.1 ∧ a.2 ≤ b.2)

instance : DecidableRel lexLE := fun a b =>
  inferInstanceAs (Decidable (_ ∨ _))

/-- The tail of the merge loop of `merge_intervals` (`for start, end in
sorted_intervals[1:]`): `cur` is the last element of the growing `merged`
list, the elements already final precede the recursive call. -/
def mergeGo : Interval → List Interval → List Interval
  | cur, [] => [cur]
  | cur, (s, e) :: rest =>
    if s ≤ cur.2 then
      mergeGo (cur.1, max cur.2 e) rest
    else
      cur :: mergeGo (s, e) rest

/-- `merge_intervals` from the source: sort by start (lexicographically, as
Python `sorted` does on tuples), then sweep, absorbing any interval whose
start is `≤` the current merged end. -/
def merge_intervals (intervals : List Interval) : List Interval :=
  match List.insertionSort lexLE intervals with
  | [] => []
  | h :: t => mergeGo h t

/-- `calculate_total_time` from the source: sum of `end - start`. -/
def calculate_total_time (intervals : List Interval) : Int :=
  (intervals.map fun p => p.2 - p.1).sum

/-- Specification-side measure: the set of integer instants covered by a
list of half-open intervals, as a `Finset`. -/
def unionIco (l : List Interval) : Finset Int :=
  l.foldr (fun p acc => Finset.Ico p.1 p.2 ∪ acc) ∅

/-- The `charger_to_station` dict built at the top of
`calculate_station_uptime` by iterating the stations dict. -/
def build_charger_to_station (stations : List (Int × List Int)) :
    List (Int × Int) :=
  stations.foldl (fun acc p => acc ++ p.2.map fun c => (c, p.1)) []

/-- Dict lookup: the most recently written binding wins. -/
def dictFind (m : List (Int × Int)) (k : Int) : Option Int :=
  (m.reverse.find? fun q => q.1 == k).map fun q => q.2

/-- The list `station_reports[sid]`: the station's reports, in file order,
with the charger id dropped (start, end, isUp). -/
def reports_for_station (stations : List (Int × List Int))
    (reports : List Report) (sid : Int) : List (Int × Int × Bool) :=
  (reports.filter fun r =>
      dictFind (build_charger_to_station stations) r.1 == some sid).map
    fun r => (r.2.1, r.2.2.1, r.2.2.2)

/-- The per-station body of the loop of `calculate_station_uptime`. -/
def station_uptime_of : List (Int × Int × Bool) → Int
  | [] => 0
  | r :: rs =>
    let min_start : Int := (rs.map fun p => p.1).foldl min r.1
    let max_end : Int := (rs.map fun p => p.2.1).foldl max r.2.1
    let total_time := max_end - min_start
    let up_intervals :=
      ((r :: rs).filter fun p => p.2.2).map fun p => (p.1, p.2.1)
    let up_time := calculate_total_time (merge_intervals up_intervals)
    if total_time = 0 then 0 else (up_time * 100).fdiv total_time

/-- `calculate_station_uptime` from the source.  The dict lookup
`charger_to_station[charger_id]` raises `KeyError` on an unknown charger;
accordingly the embedding returns `none` exactly when some report's charger
is absent from the built dict, and otherwise the per-station results in
stations order. -/
def calculate_station_uptime (stations : List (Int × List Int))
    (reports : List Report) : Option (List (Int × Int)) :=
  if reports.all fun r =>
      (dictFind (build_charger_to_station stations) r.1).isSome then
    some (stations.map fun p =>
      (p.1, station_uptime_of (reports_for_station stations reports p.1)))
  else none

/-! ### The parser (`parse_input_file`)

The file is modelled as the list of its lines; reading the file itself is
I/O and stays outside the embedding.  Python strings are lists of
characters. -/

/-- Python `str` as a list of characters. -/
abbrev PyStr := List Char

/-- ASCII whitespace as recognised by Python `str.strip` / `str.split`. -/
def isSpace (c : Char) : Bool :=
  c = ' ' ∨ c = '\t' ∨ c = '\n' ∨ c = '\r' ∨ c = '\x0b' ∨ c = '\x0c'

/-- Python `line.strip()`. -/
def strip (s : PyStr) : PyStr :=
  ((s.dropWhile isSpace).reverse.dropWhile isSpace).reverse

/-- Helper for `splitWS`: accumulates the current token reversed. -/
def splitWSGo : PyStr → PyStr → List PyStr
  | [], acc => if acc = [] then [] else [acc.reverse]
  | c :: cs, acc =>
    if isSpace c then
      if acc = [] then splitWSGo cs [] else acc.reverse :: splitWSGo cs []
    else
      splitWSGo cs (c :: acc)

/-- Python `line.split()` (no argument): split on whitespace runs,
dropping empty tokens. -/
def splitWS (s : PyStr) : List PyStr := splitWSGo s []

/-- Digit run to a number (`none` when empty or a non-digit occurs). -/
def decDigits? (cs : List Char) : Option Nat :=
  if cs ≠ [] ∧ cs.all Char.isDigit then
    some (cs.foldl (fun n c => 10 * n + (c.toNat - 48)) 0)
  else none

/-- Model of Python `int(token)` on whitespace-free tokens: an optional
sign followed by decimal digits. -/
def str_to_int? : PyStr → Option Int
  | [] => none
  | '-' :: cs => (decDigits? cs).map fun n => -(n : Int)
  | '+' :: cs => (decDigits? cs).map fun n => (n : Int)
  | cs => (decDigits? cs).map fun n => (n : Int)

/-- Python `token.lower()` (ASCII). -/
def lowerStr (s : PyStr) : PyStr := s.map Char.toLower

def UINT32_MAX : Int := 4294967295
def UINT64_MAX : Int := 18446744073709551615

/-- The parser's loop state: the `stations` and `reports` being built, the
`current_section` string, and the `charger_to_station` validation dict. -/
structure ParseState where
  stations : List (Int × List Int)
  reports : List Report
  current_section : Option String
  charger_to_station : List (Int × Int)
deriving Repr, DecidableEq

/-- Python `k in dict` for the association-list model. -/
def hasKey {β : Type} (m : List (Int × β)) (k : Int) : Bool :=
  m.any fun q => q.1 == k

/-- The inner loop over the charger tokens of a station line: parse,
range-check, reject duplicates, and extend `charger_to_station`; returns
the extended dict and the `charger_ids` list. -/
def process_charger_tokens (line_num : Nat) (station_id : Int) :
    List PyStr → List (Int × Int) → Except String (List (Int × Int) × List Int)
  | [], cmap => .ok (cmap, [])
  | t :: ts, cmap =>
    match str_to_int? t with
    | none => .error ("Invalid integer at " ++ ("line " ++ toString line_num))
    | some charger_id =>
      if charger_id < 0 ∨ charger_id > UINT32_MAX then
        .error ("Charger ID out of uint32 range at " ++ ("line " ++ toString line_num))
      else if hasKey cmap charger_id then
        .error ("Duplicate charger ID " ++ toString charger_id ++ " at " ++
          ("line " ++ toString line_num))
      else
        match process_charger_tokens line_num station_id ts
            (cmap ++ [(charger_id, station_id)]) with
        | .error e => .error e
        | .ok (cmap2, ids) => .ok (cmap2, charger_id :: ids)

/-- A data line of the `[Stations]` section. -/
def process_station_line (parts : List PyStr) (line_num : Nat)
    (st : ParseState) : Except String ParseState :=
  match parts with
  | [] => .error ("Invalid station line at " ++ ("line " ++ toString line_num))
  | p0 :: rest =>
    match str_to_int? p0 with
    | none => .error ("Invalid integer at " ++ ("line " ++ toString line_num))
    | some station_id =>
      if station_id < 0 ∨ station_id > UINT32_MAX then
        .error ("Station ID out of uint32 range at " ++ ("line " ++ toString line_num))
      else
        match process_charger_tokens line_num station_id rest
            st.charger_to_station with
        | .error e => .error e
        | .ok (cmap2, charger_ids) =>
          if hasKey st.stations station_id then
            .error ("Duplicate station ID " ++ toString station_id ++ " at " ++
              ("line " ++ toString line_num))
          else
            .ok { st with
              stations := st.stations ++ [(station_id, charger_ids)],
              charger_to_station := cmap2 }

/-- A data line of the `[Charger Availability Reports]` section, with the
source's validation order: token count, integer parses, range checks, the
up flag, the time range, and finally the known-charger check. -/
def process_report_line (parts : List PyStr) (line_num : Nat)
    (st : ParseState) : Except String ParseState :=
  match parts with
  | [p0, p1, p2, p3] =>
    match str_to_int? p0 with
    | none => .error ("Invalid integer at " ++ ("line " ++ toString line_num))
    | some charger_id =>
    match str_to_int? p1 with
    | none => .error ("Invalid integer at " ++ ("line " ++ toString line_num))
    | some start_time =>
    match str_to_int? p2 with
    | none => .error ("Invalid integer at " ++ ("line " ++ toString line_num))
    | some end_time =>
    let up_str := lowerStr p3
    if charger_id < 0 ∨ charger_id > UINT32_MAX then
      .error ("Charger ID out of uint32 range at " ++ ("line " ++ toString line_num))
    else if start_time < 0 ∨ start_time > UINT64_MAX then
      .error ("Start time out of uint64 range at " ++ ("line " ++ toString line_num))
    else if end_time < 0 ∨ end_time > UINT64_MAX then
      .error ("End time out of uint64 range at " ++ ("line " ++ toString line_num))
    else
      match if up_str = "true".data then some true
            else if up_str = "false".data then some false
            else none with
      | none =>
        .error ("Invalid up value at " ++ ("line " ++ toString line_num) ++
          ": must be \x27true\x27 or \x27false\x27")
      | some is_up =>
        if start_time ≥ end_time then
          .error ("Invalid time range at " ++ ("line " ++ toString line_num) ++
            ": start >= end")
        else if ¬ hasKey st.charger_to_station charger_id then
          .error ("Unknown charger ID " ++ toString charger_id ++ " at " ++
            ("line " ++ toString line_num))
        else
          .ok { st with
            reports := st.reports ++ [(charger_id, start_time, end_time, is_up)] }
  | _ =>
    .error ("Invalid report format at " ++ ("line " ++ toString line_num) ++
      ": expected 4 fields")

/-- One iteration of the parser's line loop: strip, skip blanks, switch
sections on headers, otherwise dispatch on the current section. -/
def process_line (raw : PyStr) (line_num : Nat) (st : ParseState) :
    Except String ParseState :=
  let line := strip raw
  if line = [] then .ok st
  else if line = "[Stations]".data then
    .ok { st with current_section := some "stations" }
  else if line = "[Charger Availability Reports]".data then
    .ok { st with current_section := some "reports" }
  else if st.current_section = some "stations" then
    process_station_line (splitWS line) line_num st
  else if st.current_section = some "reports" then
    process_report_line (splitWS line) line_num st
  else if st.current_section = none then
    .error ("Data found before section header at " ++ ("line " ++ toString line_num))
  else .ok st

def parse_loop : List PyStr → Nat → ParseState → Except String ParseState
  | [], _, st => .ok st
  | l :: ls, n, st =>
    match process_line l n st with
    | .error e => .error e
    | .ok st2 => parse_loop ls (n + 1) st2

def initState : ParseState := ⟨[], [], none, []⟩

/-- `parse_input_file`, from the list of lines onward (file access is
I/O): run the line loop from line number 1, then reject an empty stations
dict. -/
def parse_input_lines (lines : List PyStr) :
    Except String (List (Int × List Int) × List Report) :=
  match parse_loop lines 1 initState with
  | .error e => .error e
  | .ok st =>
    if st.stations = [] then .error "No stations defined in input file"
    else .ok (st.stations, st.reports)

/-! ### Specification-side vocabulary -/

/-- All charger ids declared across a stations mapping, in order. -/
def allChargers (stations : List (Int × List Int)) : List Int :=
  stations.foldr (fun p acc => p.2 ++ acc) []

/-- An error message "reports the 1-based line number `n`" when it embeds
the fragment `line n`. -/
def mentionsLine (msg : String) (n : Nat) : Prop :=
  ("line " ++ toString n).data <:+: msg.data

/-- The parser invariant tying the validation dict to the declared
stations: its keys are exactly the chargers declared so far, in order. -/
def StInv (st : ParseState) : Prop :=
  st.charger_to_station.map (fun q => q.1) = allChargers st.stations

/-- Specification-side: the instants a station's `isUp = true` reports
cover (the union of its up intervals). -/
def upSet (rs : List (Int × Int × Bool)) : Finset Int :=
  unionIco ((rs.filter fun p => p.2.2).map fun p => (p.1, p.2.1))

/-- Specification-side: the observed window length of a station, `max
endTime − min startTime` over all its reports (0 for no reports). -/
def windowLen : List (Int × Int × Bool) → Int
  | [] => 0
  | r :: t => (t.map fun p => p.2.1).foldl max r.2.1 - (t.map fun p => p.1).foldl min r.1

/-! ## Lemmas: the lexicographic order -/

theorem lexLE_fst {a b : Interval} (h : lexLE a b) : a.1 ≤ b.1 := by
  unfold lexLE at h; omega

instance : IsTrans Interval lexLE := by
  constructor
  intro a b c hab hbc
  unfold lexLE at hab hbc ⊢
  omega

instance : IsTotal Interval lexLE := by
  constructor
  intro a b
  unfold lexLE
  omega

instance : IsAntisymm Interval lexLE := by
  constructor
  intro a b hab hba
  have : a.1 = b.1 ∧ a.2 = b.2 := by
    unfold lexLE at hab hba
    omega
  exact Prod.ext_iff.mpr this

/-! ## Lemmas: `min`/`max` folds (Python `min(...)`/`max(...)`) -/

theorem foldl_min_le_init (l : List Int) (a : Int) : l.foldl min a ≤ a := by
  induction l generalizing a with
  | nil => exact le_refl a
  | cons b t ih =>
    calc (b :: t).foldl min a = t.foldl min (min a b) := rfl
    _ ≤ min a b := ih _
    _ ≤ a := min_le_left _ _

theorem foldl_min_le_mem (l : List Int) (a : Int) :
    ∀ x ∈ l, l.foldl min a ≤ x := by
  induction l generalizing a with
  | nil => intro x hx; cases hx
  | cons b t ih =>
    intro x hx
    rcases List.mem_cons.mp hx with rfl | hx
    · calc (x :: t).foldl min a = t.foldl min (min a x) := rfl
      _ ≤ min a x := foldl_min_le_init _ _
      _ ≤ x := min_le_right _ _
    · exact ih _ x hx

theorem foldl_min_mem (l : List Int) (a : Int) :
    l.foldl min a = a ∨ l.foldl min a ∈ l := by
  induction l generalizing a with
  | nil => exact Or.inl rfl
  | cons b t ih =>
    have : (b :: t).foldl min a = t.foldl min (min a b) := rfl
    rw [this]
    rcases ih (min a b) with h | h
    · rcases min_choice a b with hm | hm
      · exact Or.inl (h.trans hm)
      · exact Or.inr (by rw [h, hm]; exact List.mem_cons_self _ _)
    · exact Or.inr (List.mem_cons_of_mem _ h)

theorem foldl_max_init_le (l : List Int) (a : Int) : a ≤ l.foldl max a := by
  induction l generalizing a with
  | nil => exact le_refl a
  | cons b t ih =>
    calc a ≤ max a b := le_max_left _ _
    _ ≤ t.foldl max (max a b) := ih _
    _ = (b :: t).foldl max a := rfl

theorem foldl_max_mem_le (l : List Int) (a : Int) :
    ∀ x ∈ l, x ≤ l.foldl max a := by
  induction l generalizing a with
  | nil => intro x hx; cases hx
  | cons b t ih =>
    intro x hx
    rcases List.mem_cons.mp hx with rfl | hx
    · calc x ≤ max a x := le_max_right _ _
      _ ≤ t.foldl max (max a x) := foldl_max_init_le _ _
      _ = (x :: t).foldl max a := rfl
    · exact ih _ x hx

theorem foldl_max_mem (l : List Int) (a : Int) :
    l.foldl max a = a ∨ l.foldl max a ∈ l := by
  induction l generalizing a with
  | nil => exact Or.inl rfl
  | cons b t ih =>
    have : (b :: t).foldl max a = t.foldl max (max a b) := rfl
    rw [this]
    rcases ih (max a b) with h | h
    · rcases max_choice a b with hm | hm
      · exact Or.inl (h.trans hm)
      · exact Or.inr (by rw [h, hm]; exact List.mem_cons_self _ _)
    · exact Or.inr (List.mem_cons_of_mem _ h)

/-! ## Lemmas: the merge sweep -/

theorem mergeGo_head (cur : Interval) (t : List Interval) :
    ∃ E rest, mergeGo cur t = (cur.1, E) :: rest ∧ cur.2 ≤ E := by
  induction t generalizing cur with
  | nil => exact ⟨cur.2, [], rfl, le_refl _⟩
  | cons hd r ih =>
    obtain ⟨s, e⟩ := hd
    by_cases hs : s ≤ cur.2
    · obtain ⟨E, rest, heq, hle⟩ := ih (cur.1, max cur.2 e)
      refine ⟨E, rest, ?_, ?_⟩
      · simpa [mergeGo, hs] using heq
      · exact le_trans (le_max_left _ _) hle
    · exact ⟨cur.2, mergeGo (s, e) r, by simp [mergeGo, hs], le_refl _⟩

theorem mergeGo_origin (cur : Interval) (t : List Interval) :
    ∀ q ∈ mergeGo cur t, ∃ p ∈ cur :: t, q.1 = p.1 ∧ p.2 ≤ q.2 := by
  induction t generalizing cur with
  | nil =>
    intro q hq
    simp only [mergeGo, List.mem_singleton] at hq
    exact ⟨cur, List.mem_cons_self _ _, by rw [hq], by rw [hq]⟩
  | cons hd r ih =>
    obtain ⟨s, e⟩ := hd
    intro q hq
    by_cases hs : s ≤ cur.2
    · simp only [mergeGo, if_pos hs] at hq
      obtain ⟨p, hp, h1, h2⟩ := ih (cur.1, max cur.2 e) q hq
      rcases List.mem_cons.mp hp with rfl | hp
      · exact ⟨cur, List.mem_cons_self _ _, h1, le_trans (le_max_left _ _) h2⟩
      · exact ⟨p, List.mem_cons_of_mem _ (List.mem_cons_of_mem _ hp), h1, h2⟩
    · simp only [mergeGo, if_neg hs, List.mem_cons] at hq
      rcases hq with rfl | hq
      · exact ⟨q, List.mem_cons_self _ _, rfl, le_refl _⟩
      · obtain ⟨p, hp, h1, h2⟩ := ih (s, e) q hq
        exact ⟨p, List.mem_cons_of_mem _ hp, h1, h2⟩

theorem absorb_pairwise {cur : Interval} {s e : Int} {r : List Interval}
    (h : List.Pairwise lexLE (cur :: (s, e) :: r)) :
    List.Pairwise lexLE ((cur.1, max cur.2 e) :: r) := by
  obtain ⟨hcur, h2⟩ := List.pairwise_cons.mp h
  obtain ⟨hse, hr⟩ := List.pairwise_cons.mp h2
  refine List.pairwise_cons.mpr ⟨?_, hr⟩
  intro q hq
  have h1 := hcur q (List.mem_cons_of_mem _ hq)
  have h3 := hse q hq
  have h4 := hcur (s, e) (List.mem_cons_self _ _)
  rcases le_total cur.2 e with hce | hce
  · rw [max_eq_right hce]
    unfold lexLE at h1 h3 h4 ⊢
    dsimp only at h3 h4 ⊢
    omega
  · rw [max_eq_left hce]
    unfold lexLE at h1 h3 h4 ⊢
    dsimp only at h3 h4 ⊢
    omega

theorem mergeGo_pairwise {cur : Interval} {t : List Interval}
    (h : List.Pairwise lexLE (cur :: t)) :
    List.Pairwise lexLE (mergeGo cur t) := by
  induction t generalizing cur with
  | nil => simp [mergeGo]
  | cons hd r ih =>
    obtain ⟨s, e⟩ := hd
    by_cases hs : s ≤ cur.2
    · simpa [mergeGo, if_pos hs] using ih (absorb_pairwise h)
    · simp only [mergeGo, if_neg hs]
      refine List.pairwise_cons.mpr ⟨?_, ih h.of_cons⟩
      intro q hq
      obtain ⟨p, hp, h1, h2⟩ := mergeGo_origin (s, e) r q hq
      have hcp := List.rel_of_pairwise_cons h hp
      unfold lexLE at hcp ⊢
      omega

theorem mergeGo_chain {cur : Interval} {t : List Interval}
    (h : List.Pairwise lexLE (cur :: t)) :
    List.Chain' (fun a b => a.2 < b.1) (mergeGo cur t) := by
  induction t generalizing cur with
  | nil => simp [mergeGo]
  | cons hd r ih =>
    obtain ⟨s, e⟩ := hd
    by_cases hs : s ≤ cur.2
    · simpa [mergeGo, if_pos hs] using ih (absorb_pairwise h)
    · simp only [mergeGo, if_neg hs]
      obtain ⟨E, rest, heq, -⟩ := mergeGo_head (s, e) r
      rw [heq]
      refine List.chain'_cons.mpr ⟨?_, ?_⟩
      · show cur.2 < s
        omega
      · rw [← heq]
        exact ih h.of_cons

theorem unionIco_cons (p : Interval) (l : List Interval) :
    unionIco (p :: l) = Finset.Ico p.1 p.2 ∪ unionIco l := rfl

theorem mem_unionIco {x : Int} {l : List Interval} :
    x ∈ unionIco l ↔ ∃ p ∈ l, p.1 ≤ x ∧ x < p.2 := by
  induction l with
  | nil => simp [unionIco]
  | cons p t ih =>
    simp [unionIco_cons, Finset.mem_union, Finset.mem_Ico, ih]

theorem unionIco_perm {l₁ l₂ : List Interval} (h : l₁.Perm l₂) :
    unionIco l₁ = unionIco l₂ := by
  apply Finset.ext
  intro x
  simp only [mem_unionIco]
  constructor
  · rintro ⟨p, hp, h1, h2⟩; exact ⟨p, h.mem_iff.mp hp, h1, h2⟩
  · rintro ⟨p, hp, h1, h2⟩; exact ⟨p, h.mem_iff.mpr hp, h1, h2⟩

theorem Ico_absorb {a b s e : Int} (h1 : a ≤ s) (h2 : s ≤ b) :
    Finset.Ico a (max b e) = Finset.Ico a b ∪ Finset.Ico s e := by
  apply Finset.ext
  intro x
  simp only [Finset.mem_Ico, Finset.mem_union, lt_max_iff]
  omega

theorem mergeGo_union {cur : Interval} {t : List Interval}
    (h : List.Pairwise lexLE (cur :: t)) :
    unionIco (mergeGo cur t) = unionIco (cur :: t) := by
  induction t generalizing cur with
  | nil => rfl
  | cons hd r ih =>
    obtain ⟨s, e⟩ := hd
    by_cases hs : s ≤ cur.2
    · have hcs : cur.1 ≤ s :=
        lexLE_fst (List.rel_of_pairwise_cons h (List.mem_cons_self _ _))
      have step := ih (absorb_pairwise h)
      simp only [mergeGo, if_pos hs]
      rw [step, unionIco_cons, unionIco_cons, unionIco_cons]
      show Finset.Ico cur.1 (max cur.2 e) ∪ unionIco r = _
      rw [Ico_absorb hcs hs, Finset.union_assoc]
    · simp only [mergeGo, if_neg hs]
      rw [unionIco_cons, ih h.of_cons]
      exact (unionIco_cons _ _).symm

theorem mergeGo_of_chain {cur : Interval} {t : List Interval}
    (h : List.Chain' (fun a b => a.2 < b.1) (cur :: t)) :
    mergeGo cur t = cur :: t := by
  induction t generalizing cur with
  | nil => rfl
  | cons hd r ih =>
    obtain ⟨s, e⟩ := hd
    have hlt : cur.2 < s := (List.chain'_cons.mp h).1
    have hs : ¬ s ≤ cur.2 := by omega
    simp only [mergeGo, if_neg hs]
    rw [ih (List.chain'_cons.mp h).2]

theorem chain_pairwise_lt {L : List Interval}
    (h1 : List.Pairwise lexLE L)
    (h2 : List.Chain' (fun a b => a.2 < b.1) L) :
    List.Pairwise (fun a b : Interval => a.2 < b.1) L := by
  induction L with
  | nil => exact List.Pairwise.nil
  | cons a t ih =>
    refine List.pairwise_cons.mpr ⟨?_, ih h1.of_cons (List.Chain'.tail h2)⟩
    intro q hq
    cases t with
    | nil => cases hq
    | cons b t2 =>
      have hab : a.2 < b.1 := (List.chain'_cons.mp h2).1
      rcases List.mem_cons.mp hq with rfl | hq
      · exact hab
      · have hbq : lexLE b q := List.rel_of_pairwise_cons h1.of_cons hq
        have := lexLE_fst hbq
        omega

theorem total_eq_card {L : List Interval}
    (hlt : List.Pairwise (fun a b : Interval => a.2 < b.1) L)
    (hgood : ∀ p ∈ L, p.1 ≤ p.2) :
    calculate_total_time L = ((unionIco L).card : Int) := by
  induction L with
  | nil => rfl
  | cons a t ih =>
    have hdisj : Disjoint (Finset.Ico a.1 a.2) (unionIco t) := by
      rw [Finset.disjoint_left]
      intro x hx hx2
      obtain ⟨p, hp, h1, h2⟩ := mem_unionIco.mp hx2
      have := List.rel_of_pairwise_cons hlt hp
      simp only [Finset.mem_Ico] at hx
      omega
    have hcard : (unionIco (a :: t)).card =
        (Finset.Ico a.1 a.2).card + (unionIco t).card := by
      rw [unionIco_cons, Finset.card_union_of_disjoint hdisj]
    have htot : calculate_total_time (a :: t) =
        (a.2 - a.1) + calculate_total_time t := by
      simp [calculate_total_time]
    rw [htot, hcard, ih hlt.of_cons (fun p hp => hgood p (List.mem_cons_of_mem _ hp))]
    have ha : (0 : Int) ≤ a.2 - a.1 := by
      have := hgood a (List.mem_cons_self _ _)
      omega
    push_cast
    rw [Int.card_Ico, Int.toNat_of_nonneg ha]

/-! ## Lemmas: `merge_intervals` top level -/

theorem insertionSort_pairwise (l : List Interval) :
    List.Pairwise lexLE (List.insertionSort lexLE l) :=
  List.sorted_insertionSort lexLE l

theorem merge_intervals_pairwise (l : List Interval) :
    List.Pairwise lexLE (merge_intervals l) := by
  unfold merge_intervals
  rcases hs : List.insertionSort lexLE l with _ | ⟨h, t⟩
  · exact List.Pairwise.nil
  · exact mergeGo_pairwise (hs ▸ insertionSort_pairwise l)

theorem merge_intervals_chain (l : List Interval) :
    List.Chain' (fun a b : Interval => a.2 < b.1) (merge_intervals l) := by
  unfold merge_intervals
  rcases hs : List.insertionSort lexLE l with _ | ⟨h, t⟩
  · exact List.chain'_nil
  · exact mergeGo_chain (hs ▸ insertionSort_pairwise l)

theorem merge_intervals_sorted_fst (l : List Interval) :
    List.Pairwise (fun a b : Interval => a.1 ≤ b.1) (merge_intervals l) :=
  (merge_intervals_pairwise l).imp lexLE_fst

theorem merge_intervals_pairwise_lt (l : List Interval) :
    List.Pairwise (fun a b : Interval => a.2 < b.1) (merge_intervals l) :=
  chain_pairwise_lt (merge_intervals_pairwise l) (merge_intervals_chain l)

theorem merge_intervals_union (l : List Interval) :
    unionIco (merge_intervals l) = unionIco l := by
  unfold merge_intervals
  rcases hs : List.insertionSort lexLE l with _ | ⟨h, t⟩
  · have : l.Perm [] := hs ▸ (List.perm_insertionSort lexLE l).symm
    rw [unionIco_perm this]
  · rw [mergeGo_union (hs ▸ insertionSort_pairwise l)]
    exact unionIco_perm (hs ▸ List.perm_insertionSort lexLE l)

theorem merge_intervals_good {l : List Interval} (h : ∀ p ∈ l, p.1 ≤ p.2) :
    ∀ p ∈ merge_intervals l, p.1 ≤ p.2 := by
  unfold merge_intervals
  rcases hs : List.insertionSort lexLE l with _ | ⟨hd, t⟩
  · intro p hp; cases hp
  · intro q hq
    obtain ⟨p, hp, h1, h2⟩ := mergeGo_origin hd t q hq
    have : p ∈ l := (List.perm_insertionSort lexLE l).mem_iff.mp (hs ▸ hp)
    have := h p this
    omega

theorem merge_intervals_idem (l : List Interval) :
    merge_intervals (merge_intervals l) = merge_intervals l := by
  have h1 : List.insertionSort lexLE (merge_intervals l) = merge_intervals l :=
    List.Sorted.insertionSort_eq (merge_intervals_pairwise l)
  have h2 := merge_intervals_chain l
  rw [merge_intervals, h1]
  cases hM : merge_intervals l with
  | nil => rfl
  | cons hd t =>
    rw [hM] at h2
    exact mergeGo_of_chain h2

theorem total_merge_eq_card {l : List Interval} (h : ∀ p ∈ l, p.1 ≤ p.2) :
    calculate_total_time (merge_intervals l) = ((unionIco l).card : Int) := by
  rw [total_eq_card (merge_intervals_pairwise_lt l) (merge_intervals_good h)]
  rw [merge_intervals_union l]

/-- Claim C2, amended only where the counterexample forces it: for every
list of intervals, `merge_intervals` returns a list sorted by start,
pairwise non-overlapping and non-adjacent (each end strictly below the
next start), and merging twice equals merging once; the total length of
the output equals the size of the union of the inputs whenever every
input interval has `start ≤ end` (the counterexample shows this clause
fails on a backwards interval). -/
theorem merge_intervals_spec (l : List Interval) :
    (merge_intervals l).Pairwise (fun a b => a.1 ≤ b.1) ∧
    (merge_intervals l).Pairwise (fun a b => a.2 < b.1) ∧
    ((∀ p ∈ l, p.1 ≤ p.2) →
      calculate_total_time (merge_intervals l) = ((unionIco l).card : Int)) ∧
    merge_intervals (merge_intervals l) = merge_intervals l :=
  ⟨merge_intervals_sorted_fst l, merge_intervals_pairwise_lt l,
    fun h => total_merge_eq_card h, merge_intervals_idem l⟩

/-- Witness for C2's theorem at a concrete interval list containing
overlapping, touching and disjoint intervals, discharging the
`start ≤ end` hypothesis of the total-length clause. -/
theorem merge_intervals_spec_witness :
    (∀ p ∈ [((0:Int), 10), (10, 20), (5, 7), (25, 30)], p.1 ≤ p.2) ∧
    calculate_total_time (merge_intervals [((0:Int), 10), (10, 20), (5, 7), (25, 30)]) =
      ((unionIco [((0:Int), 10), (10, 20), (5, 7), (25, 30)]).card : Int) ∧
    merge_intervals (merge_intervals [((0:Int), 10), (10, 20), (5, 7), (25, 30)]) =
      merge_intervals [((0:Int), 10), (10, 20), (5, 7), (25, 30)] :=
  ⟨by decide,
    (merge_intervals_spec [((0:Int), 10), (10, 20), (5, 7), (25, 30)]).2.2.1 (by decide),
    (merge_intervals_spec [((0:Int), 10), (10, 20), (5, 7), (25, 30)]).2.2.2⟩

/-- Counterexample to C2 as stated (over every list of intervals): on the
backwards interval `(5, 0)` the merged output's total length is `-5`,
while the union of the inputs is empty. -/
theorem merge_intervals_claim_cex :
    ¬ ((merge_intervals [((5:Int), 0)]).Pairwise (fun a b => a.1 ≤ b.1) ∧
      (merge_intervals [((5:Int), 0)]).Pairwise (fun a b => a.2 < b.1) ∧
      calculate_total_time (merge_intervals [((5:Int), 0)]) =
        ((unionIco [((5:Int), 0)]).card : Int) ∧
      merge_intervals (merge_intervals [((5:Int), 0)]) =
        merge_intervals [((5:Int), 0)]) := by
  intro h
  exact absurd h.2.2.1 (by decide)

/-! ## Lemmas: the uptime calculator -/

theorem allChargers_cons (p : Int × List Int) (t : List (Int × List Int)) :
    allChargers (p :: t) = p.2 ++ allChargers t := rfl

theorem mem_allChargers {c : Int} {stations : List (Int × List Int)} :
    c ∈ allChargers stations ↔ ∃ p ∈ stations, c ∈ p.2 := by
  induction stations with
  | nil => simp [allChargers]
  | cons p t ih =>
    simp only [allChargers_cons, List.mem_append, ih, List.mem_cons]
    constructor
    · rintro (hc | ⟨q, hq, hc⟩)
      · exact ⟨p, Or.inl rfl, hc⟩
      · exact ⟨q, Or.inr hq, hc⟩
    · rintro ⟨q, rfl | hq, hc⟩
      · exact Or.inl hc
      · exact Or.inr ⟨q, hq, hc⟩

theorem build_keys_aux (stations : List (Int × List Int)) (init : List (Int × Int)) :
    (stations.foldl (fun acc p => acc ++ p.2.map fun c => (c, p.1)) init).map
        (fun q => q.1) =
      init.map (fun q => q.1) ++ allChargers stations := by
  induction stations generalizing init with
  | nil => simp [allChargers]
  | cons p t ih =>
    simp only [List.foldl_cons, allChargers_cons]
    rw [ih]
    have hmap : p.2.map ((fun q : Int × Int => q.1) ∘ fun c => (c, p.1)) = p.2 := by
      induction p.2 with
      | nil => rfl
      | cons c cs ih2 =>
        rw [List.map_cons, ih2]
        rfl
    simp only [List.map_append, List.map_map, List.append_assoc, hmap]

theorem build_keys (stations : List (Int × List Int)) :
    (build_charger_to_station stations).map (fun q => q.1) =
      allChargers stations := by
  unfold build_charger_to_station
  rw [build_keys_aux]
  rfl

theorem dictFind_isSome {m : List (Int × Int)} {k : Int} :
    (dictFind m k).isSome = true ↔ k ∈ m.map fun q => q.1 := by
  unfold dictFind
  have hiso : ∀ o : Option (Int × Int), (Option.map (fun q => q.2) o).isSome = o.isSome :=
    fun o => by cases o <;> rfl
  rw [hiso, List.find?_isSome]
  simp only [List.mem_reverse, beq_iff_eq, List.mem_map]

theorem guard_of_assoc {stations : List (Int × List Int)} {reports : List Report}
    (h : ∀ r ∈ reports, ∃ p ∈ stations, r.1 ∈ p.2) :
    (reports.all fun r =>
      (dictFind (build_charger_to_station stations) r.1).isSome) = true := by
  rw [List.all_eq_true]
  intro r hr
  obtain ⟨p, hp, hc⟩ := h r hr
  rw [dictFind_isSome, build_keys]
  exact mem_allChargers.mpr ⟨p, hp, hc⟩

theorem calculate_station_uptime_eq {stations : List (Int × List Int)}
    {reports : List Report}
    (h : ∀ r ∈ reports, ∃ p ∈ stations, r.1 ∈ p.2) :
    calculate_station_uptime stations reports =
      some (stations.map fun p =>
        (p.1, station_uptime_of (reports_for_station stations reports p.1))) := by
  unfold calculate_station_uptime
  rw [if_pos (guard_of_assoc h)]

theorem calculate_station_uptime_some_inv {stations : List (Int × List Int)}
    {reports : List Report} {m : List (Int × Int)}
    (hok : calculate_station_uptime stations reports = some m) :
    m = stations.map fun p =>
      (p.1, station_uptime_of (reports_for_station stations reports p.1)) := by
  unfold calculate_station_uptime at hok
  split at hok
  · exact (Option.some_injective _ hok).symm
  · cases hok

/-- Claim C8: whenever every report's charger id belongs to some station's
charger list, `calculate_station_uptime` succeeds (every per-report
charger-to-station lookup hits, no failure mode remains). -/
theorem calculate_station_uptime_total (stations : List (Int × List Int))
    (reports : List Report)
    (h : ∀ r ∈ reports, ∃ p ∈ stations, r.1 ∈ p.2) :
    (calculate_station_uptime stations reports).isSome = true := by
  rw [calculate_station_uptime_eq h]
  rfl

/-- Witness for C8 at the spec's demo stations and reports. -/
theorem calculate_station_uptime_total_witness :
    (∀ r ∈ ([(1001, 0, 100, true), (1002, 50, 150, false), (1003, 0, 200, true)] :
        List Report),
      ∃ p ∈ ([(0, [1001, 1002]), (1, [1003])] : List (Int × List Int)), r.1 ∈ p.2) ∧
    (calculate_station_uptime [(0, [1001, 1002]), (1, [1003])]
      [(1001, 0, 100, true), (1002, 50, 150, false), (1003, 0, 200, true)]).isSome = true :=
  ⟨by decide, calculate_station_uptime_total _ _ (by decide)⟩

/-- Claim C4: the result has exactly one entry per declared station, in
stations order (so equal key sequences), and a station none of whose
chargers is referenced by any report is mapped to 0. -/
theorem calculate_station_uptime_keys (stations : List (Int × List Int))
    (reports : List Report) (m : List (Int × Int))
    (hok : calculate_station_uptime stations reports = some m) :
    m.map (fun q => q.1) = stations.map (fun p => p.1) ∧
    ∀ p ∈ stations, reports_for_station stations reports p.1 = [] →
      (p.1, 0) ∈ m := by
  have hm := calculate_station_uptime_some_inv hok
  constructor
  · rw [hm, List.map_map]
    rfl
  · intro p hp hempty
    rw [hm]
    refine List.mem_map.mpr ⟨p, hp, ?_⟩
    rw [hempty]
    rfl

/-- Witness for C4: a run with a reportless station (id 7). -/
theorem calculate_station_uptime_keys_witness :
    (calculate_station_uptime [(0, [1001]), (7, [1002])] [(1001, 0, 50, true)] =
      some [(0, 100), (7, 0)]) ∧
    ([(0, 100), (7, 0)].map (fun q : Int × Int => q.1) =
      [(0, [1001]), (7, [1002])].map (fun p : Int × List Int => p.1)) ∧
    ((7, 0) ∈ ([(0, 100), (7, 0)] : List (Int × Int))) :=
  ⟨by decide,
    (calculate_station_uptime_keys [(0, [1001]), (7, [1002])] [(1001, 0, 50, true)]
      [(0, 100), (7, 0)] (by decide)).1,
    (calculate_station_uptime_keys [(0, [1001]), (7, [1002])] [(1001, 0, 50, true)]
      [(0, 100), (7, 0)] (by decide)).2 (7, [1002]) (by decide) (by decide)⟩

theorem foldl_min_self_mem (l : List Int) (a : Int) : l.foldl min a ∈ a :: l := by
  rcases foldl_min_mem l a with h | h
  · rw [h]; exact List.mem_cons_self _ _
  · exact List.mem_cons_of_mem _ h

theorem foldl_min_le_of_mem {l : List Int} {a x : Int} (hx : x ∈ a :: l) :
    l.foldl min a ≤ x := by
  rcases List.mem_cons.mp hx with rfl | hx
  · exact foldl_min_le_init _ _
  · exact foldl_min_le_mem _ _ _ hx

theorem foldl_max_self_mem (l : List Int) (a : Int) : l.foldl max a ∈ a :: l := by
  rcases foldl_max_mem l a with h | h
  · rw [h]; exact List.mem_cons_self _ _
  · exact List.mem_cons_of_mem _ h

theorem foldl_max_ge_of_mem {l : List Int} {a x : Int} (hx : x ∈ a :: l) :
    x ≤ l.foldl max a := by
  rcases List.mem_cons.mp hx with rfl | hx
  · exact foldl_max_init_le _ _
  · exact foldl_max_mem_le _ _ _ hx

theorem foldl_min_perm {l₁ l₂ : List Int} {a₁ a₂ : Int}
    (h : (a₁ :: l₁).Perm (a₂ :: l₂)) :
    l₁.foldl min a₁ = l₂.foldl min a₂ := by
  apply le_antisymm
  · exact foldl_min_le_of_mem (h.mem_iff.mpr (foldl_min_self_mem l₂ a₂))
  · exact foldl_min_le_of_mem (h.mem_iff.mp (foldl_min_self_mem l₁ a₁))

theorem foldl_max_perm {l₁ l₂ : List Int} {a₁ a₂ : Int}
    (h : (a₁ :: l₁).Perm (a₂ :: l₂)) :
    l₁.foldl max a₁ = l₂.foldl max a₂ := by
  apply le_antisymm
  · exact foldl_max_ge_of_mem (h.mem_iff.mp (foldl_max_self_mem l₁ a₁))
  · exact foldl_max_ge_of_mem (h.mem_iff.mpr (foldl_max_self_mem l₂ a₂))

theorem merge_intervals_perm_eq {l₁ l₂ : List Interval} (h : l₁.Perm l₂) :
    merge_intervals l₁ = merge_intervals l₂ := by
  have hsort : List.insertionSort lexLE l₁ = List.insertionSort lexLE l₂ :=
    List.eq_of_perm_of_sorted
      ((List.perm_insertionSort lexLE l₁).trans
        (h.trans (List.perm_insertionSort lexLE l₂).symm))
      (List.sorted_insertionSort lexLE l₁) (List.sorted_insertionSort lexLE l₂)
  unfold merge_intervals
  rw [hsort]

theorem station_uptime_of_perm {rs₁ rs₂ : List (Int × Int × Bool)}
    (h : rs₁.Perm rs₂) :
    station_uptime_of rs₁ = station_uptime_of rs₂ := by
  cases rs₁ with
  | nil =>
    rw [List.Perm.eq_nil h.symm]
  | cons r t =>
    cases rs₂ with
    | nil => exact absurd (List.Perm.eq_nil h) (by simp)
    | cons r2 t2 =>
      have hmin : (t.map fun p => p.1).foldl min r.1 =
          (t2.map fun p => p.1).foldl min r2.1 :=
        foldl_min_perm (by simpa using h.map fun p => p.1)
      have hmax : (t.map fun p => p.2.1).foldl max r.2.1 =
          (t2.map fun p => p.2.1).foldl max r2.2.1 :=
        foldl_max_perm (by simpa using h.map fun p => p.2.1)
      have hup : merge_intervals
            (((r :: t).filter fun p => p.2.2).map fun p => (p.1, p.2.1)) =
          merge_intervals
            (((r2 :: t2).filter fun p => p.2.2).map fun p => (p.1, p.2.1)) :=
        merge_intervals_perm_eq ((h.filter _).map _)
      simp only [station_uptime_of]
      rw [hmin, hmax, hup]

/-- Claim C9: the whole computation is invariant under permuting the
report list. -/
theorem calculate_station_uptime_perm (stations : List (Int × List Int))
    {reports₁ reports₂ : List Report} (h : reports₁.Perm reports₂) :
    calculate_station_uptime stations reports₁ =
      calculate_station_uptime stations reports₂ := by
  unfold calculate_station_uptime
  have hguard : (reports₁.all fun r =>
        (dictFind (build_charger_to_station stations) r.1).isSome) =
      (reports₂.all fun r =>
        (dictFind (build_charger_to_station stations) r.1).isSome) := by
    rw [Bool.eq_iff_iff, List.all_eq_true, List.all_eq_true]
    constructor
    · intro hall r hr; exact hall r (h.mem_iff.mpr hr)
    · intro hall r hr; exact hall r (h.mem_iff.mp hr)
  rw [hguard]
  by_cases hg : (reports₂.all fun r =>
      (dictFind (build_charger_to_station stations) r.1).isSome) = true
  · rw [if_pos hg, if_pos hg]
    refine congrArg some (List.map_congr_left ?_)
    intro p hp
    refine congrArg (fun v => (p.1, v)) ?_
    exact station_uptime_of_perm ((h.filter _).map _)
  · rw [if_neg hg, if_neg hg]

/-- Witness for C9 at a concrete pair of permuted report lists. -/
theorem calculate_station_uptime_perm_witness :
    ([(1001, 0, 50, true), (1001, 100, 200, true)] : List Report).Perm
      [(1001, 100, 200, true), (1001, 0, 50, true)] ∧
    calculate_station_uptime [(0, [1001])]
        [(1001, 0, 50, true), (1001, 100, 200, true)] =
      calculate_station_uptime [(0, [1001])]
        [(1001, 100, 200, true), (1001, 0, 50, true)] :=
  ⟨List.Perm.swap _ _ _, calculate_station_uptime_perm _ (List.Perm.swap _ _ _)⟩

theorem ups_good {rs : List (Int × Int × Bool)}
    (hgood : ∀ p ∈ rs, p.1 < p.2.1) :
    ∀ q ∈ (rs.filter fun p => p.2.2).map fun p => (p.1, p.2.1), q.1 ≤ q.2 := by
  intro q hq
  obtain ⟨p, hp, rfl⟩ := List.mem_map.mp hq
  exact le_of_lt (hgood p (List.mem_filter.mp hp).1)

theorem station_uptime_of_formula {rs : List (Int × Int × Bool)} {ms Me : Int}
    (hgood : ∀ p ∈ rs, p.1 < p.2.1)
    (hms1 : ms ∈ rs.map fun p => p.1)
    (hms2 : ∀ x ∈ rs.map fun p => p.1, ms ≤ x)
    (hMe1 : Me ∈ rs.map fun p => p.2.1)
    (hMe2 : ∀ x ∈ rs.map fun p => p.2.1, x ≤ Me)
    (hdeg : Me - ms ≠ 0) :
    station_uptime_of rs = (((upSet rs).card : Int) * 100).fdiv (Me - ms) := by
  cases rs with
  | nil => simp at hms1
  | cons r t =>
    have hmin : (t.map fun p => p.1).foldl min r.1 = ms := by
      apply le_antisymm
      · exact foldl_min_le_of_mem (by simpa using hms1)
      · exact hms2 _ (by simpa using foldl_min_self_mem (t.map fun p => p.1) r.1)
    have hmax : (t.map fun p => p.2.1).foldl max r.2.1 = Me := by
      apply le_antisymm
      · exact hMe2 _ (by simpa using foldl_max_self_mem (t.map fun p => p.2.1) r.2.1)
      · exact foldl_max_ge_of_mem (by simpa using hMe1)
    simp only [station_uptime_of]
    rw [hmin, hmax, if_neg hdeg]
    rw [total_merge_eq_card (ups_good hgood)]
    rfl

theorem lookup_cons_self {b : Int} {es : List (Int × Int)} {a : Int} :
    List.lookup a ((a, b) :: es) = some b := by
  simp [List.lookup_cons]

theorem lookup_cons_ne {k b : Int} {es : List (Int × Int)} {a : Int} (h : a ≠ k) :
    List.lookup a ((k, b) :: es) = List.lookup a es := by
  simp [List.lookup_cons, beq_eq_false_iff_ne.mpr h]

theorem lookup_map_of_mem {stations : List (Int × List Int)} {sid : Int}
    {cs : List Int} (f : Int → Int)
    (hnodup : (stations.map fun p => p.1).Nodup)
    (hmem : (sid, cs) ∈ stations) :
    List.lookup sid (stations.map fun p => (p.1, f p.1)) = some (f sid) := by
  induction stations with
  | nil => cases hmem
  | cons q t ih =>
    rw [List.map_cons]
    rcases List.mem_cons.mp hmem with heq | hmem2
    · have hq1 : q.1 = sid := by rw [← heq]
      rw [hq1, lookup_cons_self]
    · have hq1 : q.1 ≠ sid := by
        intro he
        have hsid : sid ∈ t.map fun p => p.1 :=
          List.mem_map.mpr ⟨(sid, cs), hmem2, rfl⟩
        exact (List.nodup_cons.mp (by simpa using hnodup)).1 (he ▸ hsid)
      rw [lookup_cons_ne (Ne.symm hq1)]
      exact ih (by simpa using (List.nodup_cons.mp (by simpa using hnodup)).2) hmem2

/-- Claim C1: for a declared station with at least one attributed report
and a non-degenerate window, the computed entry is
`floor(upTime * 100 / totalDuration)`, where `totalDuration = Me - ms`
(greatest report end minus least report start over all the station's
reports, up and down alike) and `upTime` is the measure of the union of
the station's up intervals (gaps in the window thus count as downtime). -/
theorem uptime_formula (stations : List (Int × List Int)) (reports : List Report)
    (sid : Int) (cs : List Int) (ms Me : Int) (m : List (Int × Int))
    (hok : calculate_station_uptime stations reports = some m)
    (hnodup : (stations.map fun p => p.1).Nodup)
    (hmem : (sid, cs) ∈ stations)
    (hgood : ∀ r ∈ reports, r.2.1 < r.2.2.1)
    (hms1 : ms ∈ (reports_for_station stations reports sid).map fun p => p.1)
    (hms2 : ∀ x ∈ (reports_for_station stations reports sid).map fun p => p.1, ms ≤ x)
    (hMe1 : Me ∈ (reports_for_station stations reports sid).map fun p => p.2.1)
    (hMe2 : ∀ x ∈ (reports_for_station stations reports sid).map fun p => p.2.1, x ≤ Me)
    (hdeg : Me - ms ≠ 0) :
    List.lookup sid m =
      some ((((upSet (reports_for_station stations reports sid)).card : Int) * 100).fdiv
        (Me - ms)) := by
  have hrs_good : ∀ p ∈ reports_for_station stations reports sid, p.1 < p.2.1 := by
    intro p hp
    obtain ⟨r, hr, rfl⟩ := List.mem_map.mp hp
    exact hgood r (List.mem_filter.mp hr).1
  rw [calculate_station_uptime_some_inv hok]
  have hl : List.lookup sid (stations.map fun p =>
      (p.1, station_uptime_of (reports_for_station stations reports p.1))) =
      some (station_uptime_of (reports_for_station stations reports sid)) :=
    lookup_map_of_mem
      (fun s => station_uptime_of (reports_for_station stations reports s))
      hnodup hmem
  rw [hl]
  exact congrArg some (station_uptime_of_formula hrs_good hms1 hms2 hMe1 hMe2 hdeg)

/-- Witness for C1 at the spec's scenario `(1001,0,50,true),(1001,100,200,true)`
(window 200, up length 150, result 75). -/
theorem uptime_formula_witness :
    List.lookup 0 [((0:Int), (75:Int))] =
      some ((((upSet (reports_for_station [(0, [1001])]
          [(1001, 0, 50, true), (1001, 100, 200, true)] 0)).card : Int) * 100).fdiv
        (200 - 0)) :=
  uptime_formula [(0, [1001])] [(1001, 0, 50, true), (1001, 100, 200, true)]
    0 [1001] 0 200 [(0, 75)] (by decide) (by decide) (by decide) (by decide)
    (by decide) (by decide) (by decide) (by decide) (by decide)

theorem station_uptime_of_props {rs : List (Int × Int × Bool)}
    (hgood : ∀ p ∈ rs, p.1 < p.2.1) :
    0 ≤ station_uptime_of rs ∧ station_uptime_of rs ≤ 100 ∧
      station_uptime_of rs * windowLen rs ≤ ((upSet rs).card : Int) * 100 := by
  cases rs with
  | nil =>
    refine ⟨le_refl 0, ?_, ?_⟩
    · show (0 : Int) ≤ 100
      norm_num
    · have h0 : (0 : Int) ≤ ((upSet ([] : List (Int × Int × Bool))).card : Int) * 100 :=
        mul_nonneg (Int.natCast_nonneg _) (by norm_num)
      simpa [station_uptime_of, windowLen] using h0
  | cons r t =>
    have hself_min : (t.map fun p => p.1).foldl min r.1 ∈
        (r :: t).map fun p => p.1 := by
      simpa using foldl_min_self_mem (t.map fun p => p.1) r.1
    have hmin_le : ∀ x ∈ (r :: t).map fun p => p.1,
        (t.map fun p => p.1).foldl min r.1 ≤ x := fun x hx =>
      foldl_min_le_of_mem (by simpa using hx)
    have hself_max : (t.map fun p => p.2.1).foldl max r.2.1 ∈
        (r :: t).map fun p => p.2.1 := by
      simpa using foldl_max_self_mem (t.map fun p => p.2.1) r.2.1
    have hmax_ge : ∀ x ∈ (r :: t).map fun p => p.2.1,
        x ≤ (t.map fun p => p.2.1).foldl max r.2.1 := fun x hx =>
      foldl_max_ge_of_mem (by simpa using hx)
    have hwinpos : (t.map fun p => p.1).foldl min r.1 <
        (t.map fun p => p.2.1).foldl max r.2.1 := by
      have h5 : (t.map fun p => p.1).foldl min r.1 ≤ r.1 := foldl_min_le_init _ _
      have h6 : r.2.1 ≤ (t.map fun p => p.2.1).foldl max r.2.1 := foldl_max_init_le _ _
      have h7 := hgood r (List.mem_cons_self _ _)
      omega
    have hdeg : (t.map fun p => p.2.1).foldl max r.2.1 -
        (t.map fun p => p.1).foldl min r.1 ≠ 0 := by omega
    have hval := station_uptime_of_formula hgood hself_min hmin_le hself_max
      hmax_ge hdeg
    have hwin : windowLen (r :: t) =
        (t.map fun p => p.2.1).foldl max r.2.1 -
          (t.map fun p => p.1).foldl min r.1 := rfl
    have hups_sub : upSet (r :: t) ⊆
        Finset.Ico ((t.map fun p => p.1).foldl min r.1)
          ((t.map fun p => p.2.1).foldl max r.2.1) := by
      intro x hx
      unfold upSet at hx
      obtain ⟨q, hq, h1, h2⟩ := mem_unionIco.mp hx
      obtain ⟨p, hp, rfl⟩ := List.mem_map.mp hq
      have hpmem := (List.mem_filter.mp hp).1
      have h3 : (t.map fun p => p.1).foldl min r.1 ≤ p.1 :=
        hmin_le _ (List.mem_map.mpr ⟨p, hpmem, rfl⟩)
      have h4 : p.2.1 ≤ (t.map fun p => p.2.1).foldl max r.2.1 :=
        hmax_ge _ (List.mem_map.mpr ⟨p, hpmem, rfl⟩)
      rw [Finset.mem_Ico]
      dsimp only at h1 h2
      omega
    have hcard2 : ((upSet (r :: t)).card : Int) ≤ windowLen (r :: t) := by
      have hc := Finset.card_le_card hups_sub
      rw [Int.card_Ico] at hc
      have hnn := Int.toNat_of_nonneg (le_of_lt (sub_pos.mpr hwinpos))
      rw [hwin]
      omega
    rw [hval, hwin]
    have hTpos : (0 : Int) <
        (t.map fun p => p.2.1).foldl max r.2.1 -
          (t.map fun p => p.1).foldl min r.1 := by omega
    rw [hwin] at hcard2
    rw [Int.fdiv_eq_ediv _ (le_of_lt hTpos)]
    constructor
    · exact Int.ediv_nonneg (mul_nonneg (Int.natCast_nonneg _) (by norm_num))
        (le_of_lt hTpos)
    constructor
    · have hmul : ((upSet (r :: t)).card : Int) * 100 ≤
          100 * ((t.map fun p => p.2.1).foldl max r.2.1 -
            (t.map fun p => p.1).foldl min r.1) := by nlinarith
      calc ((upSet (r :: t)).card : Int) * 100 /
            ((t.map fun p => p.2.1).foldl max r.2.1 -
              (t.map fun p => p.1).foldl min r.1) ≤
          100 * ((t.map fun p => p.2.1).foldl max r.2.1 -
            (t.map fun p => p.1).foldl min r.1) /
            ((t.map fun p => p.2.1).foldl max r.2.1 -
              (t.map fun p => p.1).foldl min r.1) :=
            Int.ediv_le_ediv hTpos hmul
        _ = 100 := Int.mul_ediv_cancel 100 (by omega)
    · have hdm := Int.ediv_add_emod (((upSet (r :: t)).card : Int) * 100)
        ((t.map fun p => p.2.1).foldl max r.2.1 -
          (t.map fun p => p.1).foldl min r.1)
      have hmod := Int.emod_nonneg (((upSet (r :: t)).card : Int) * 100)
        (show ((t.map fun p => p.2.1).foldl max r.2.1 -
          (t.map fun p => p.1).foldl min r.1) ≠ 0 by omega)
      nlinarith

/-- Claim C3: under the parser's invariants every value of the result is
an integer in [0, 100], obtained by flooring: a value never exceeds the
exact ratio, `value * window ≤ upTime * 100`. -/
theorem uptime_bounds (stations : List (Int × List Int)) (reports : List Report)
    (m : List (Int × Int))
    (hok : calculate_station_uptime stations reports = some m)
    (hgood : ∀ r ∈ reports, r.2.1 < r.2.2.1) :
    ∀ q ∈ m, 0 ≤ q.2 ∧ q.2 ≤ 100 ∧
      q.2 * windowLen (reports_for_station stations reports q.1) ≤
        ((upSet (reports_for_station stations reports q.1)).card : Int) * 100 := by
  intro q hq
  rw [calculate_station_uptime_some_inv hok] at hq
  obtain ⟨p, hp, rfl⟩ := List.mem_map.mp hq
  have hrs_good : ∀ x ∈ reports_for_station stations reports p.1, x.1 < x.2.1 := by
    intro x hx
    obtain ⟨r, hr, rfl⟩ := List.mem_map.mp hx
    exact hgood r (List.mem_filter.mp hr).1
  exact station_uptime_of_props hrs_good

/-- Witness for C3 at the 66%-scenario of the spec (floored from 66.67). -/
theorem uptime_bounds_witness :
    0 ≤ (66 : Int) ∧ (66 : Int) ≤ 100 ∧
      (66 : Int) * windowLen (reports_for_station [(0, [1001])]
          [(1001, 0, 10, true), (1001, 10, 20, false), (1001, 20, 30, true)] 0) ≤
        ((upSet (reports_for_station [(0, [1001])]
          [(1001, 0, 10, true), (1001, 10, 20, false), (1001, 20, 30, true)] 0)).card :
            Int) * 100 :=
  uptime_bounds [(0, [1001])]
    [(1001, 0, 10, true), (1001, 10, 20, false), (1001, 20, 30, true)]
    [(0, 66)] (by decide) (by decide) (0, 66) (by decide)

/-! ## Lemmas: the parser -/

theorem hasKey_iff {β : Type} {m : List (Int × β)} {k : Int} :
    hasKey m k = true ↔ k ∈ m.map fun q => q.1 := by
  unfold hasKey
  rw [List.any_eq_true]
  simp [beq_iff_eq, List.mem_map]

theorem nodup_append_singleton {l : List Int} {x : Int} (h : l.Nodup) (hx : x ∉ l) :
    (l ++ [x]).Nodup := by
  simp [List.nodup_append, h, hx]

theorem allChargers_append (s1 s2 : List (Int × List Int)) :
    allChargers (s1 ++ s2) = allChargers s1 ++ allChargers s2 := by
  induction s1 with
  | nil => rfl
  | cons p t ih =>
    simp only [List.cons_append, allChargers_cons, ih, List.append_assoc]

theorem process_charger_tokens_ok {n : Nat} {sidv : Int} :
    ∀ {ts : List PyStr} {cmap cmap2 : List (Int × Int)} {ids : List Int},
    process_charger_tokens n sidv ts cmap = .ok (cmap2, ids) →
    cmap2.map (fun q => q.1) = cmap.map (fun q => q.1) ++ ids ∧
    ((cmap.map (fun q => q.1)).Nodup → (cmap2.map (fun q => q.1)).Nodup) := by
  intro ts
  induction ts with
  | nil =>
    intro cmap cmap2 ids h
    simp only [process_charger_tokens] at h
    injection h with hpair
    rw [Prod.ext_iff] at hpair
    obtain ⟨h1, h2⟩ := hpair
    subst h1
    subst h2
    simp
  | cons t ts ih =>
    intro cmap cmap2 ids h
    simp only [process_charger_tokens] at h
    cases hst : str_to_int? t with
    | none => rw [hst] at h; exact Except.noConfusion h
    | some cid =>
      rw [hst] at h
      dsimp only at h
      split at h
      · exact Except.noConfusion h
      · split at h
        · exact Except.noConfusion h
        · rename_i hrange hdup
          cases hrec : process_charger_tokens n sidv ts (cmap ++ [(cid, sidv)]) with
          | error e2 => rw [hrec] at h; exact Except.noConfusion h
          | ok pr =>
            obtain ⟨cmap2x, idsx⟩ := pr
            rw [hrec] at h
            dsimp only at h
            injection h with hpair
            rw [Prod.ext_iff] at hpair
            obtain ⟨h1, h2⟩ := hpair
            subst h1
            subst h2
            obtain ⟨ha, hb⟩ := ih hrec
            constructor
            · rw [ha]
              simp [List.append_assoc]
            · intro hnd
              apply hb
              rw [List.map_append]
              show (List.map (fun q : Int × Int => q.1) cmap ++ [cid]).Nodup
              apply nodup_append_singleton hnd
              intro hmem
              exact absurd (hasKey_iff.mpr hmem) (by simpa using hdup)

theorem process_station_line_ok {parts : List PyStr} {n : Nat} {st st2 : ParseState}
    (h : process_station_line parts n st = .ok st2) :
    st2.reports = st.reports ∧ st2.current_section = st.current_section ∧
    (StInv st → StInv st2) ∧
    ((st.charger_to_station.map fun q => q.1).Nodup →
      (st2.charger_to_station.map fun q => q.1).Nodup) := by
  cases parts with
  | nil => exact Except.noConfusion h
  | cons p0 rest =>
    simp only [process_station_line] at h
    cases hst : str_to_int? p0 with
    | none => rw [hst] at h; exact Except.noConfusion h
    | some sid =>
      rw [hst] at h
      dsimp only at h
      split at h
      · exact Except.noConfusion h
      · cases hrec : process_charger_tokens n sid rest st.charger_to_station with
        | error e2 => rw [hrec] at h; exact Except.noConfusion h
        | ok pr =>
          obtain ⟨cmap2, ids⟩ := pr
          rw [hrec] at h
          dsimp only at h
          split at h
          · exact Except.noConfusion h
          · injection h with hst2
            subst hst2
            obtain ⟨ha, hb⟩ := process_charger_tokens_ok hrec
            refine ⟨rfl, rfl, ?_, fun hnd => hb hnd⟩
            intro hinv
            unfold StInv at hinv ⊢
            dsimp only
            rw [ha, hinv, allChargers_append, allChargers_cons]
            simp [allChargers]

theorem process_report_line_ok {parts : List PyStr} {n : Nat} {st st2 : ParseState}
    (h : process_report_line parts n st = .ok st2) :
    st2.stations = st.stations ∧
    st2.charger_to_station = st.charger_to_station ∧
    st2.current_section = st.current_section := by
  rcases parts with _ | ⟨p0, _ | ⟨p1, _ | ⟨p2, _ | ⟨p3, _ | ⟨p4, ps⟩⟩⟩⟩⟩
  · exact Except.noConfusion h
  · exact Except.noConfusion h
  · exact Except.noConfusion h
  · exact Except.noConfusion h
  · simp only [process_report_line] at h
    cases h0 : str_to_int? p0 with
    | none => rw [h0] at h; exact Except.noConfusion h
    | some c =>
      rw [h0] at h
      dsimp only at h
      cases h1 : str_to_int? p1 with
      | none => rw [h1] at h; exact Except.noConfusion h
      | some s =>
        rw [h1] at h
        dsimp only at h
        cases h2 : str_to_int? p2 with
        | none => rw [h2] at h; exact Except.noConfusion h
        | some e =>
          rw [h2] at h
          dsimp only at h
          split at h
          · exact Except.noConfusion h
          · split at h
            · exact Except.noConfusion h
            · split at h
              · exact Except.noConfusion h
              · split at h
                · exact Except.noConfusion h
                · split at h
                  · exact Except.noConfusion h
                  · split at h
                    · exact Except.noConfusion h
                    · injection h with hst2
                      subst hst2
                      exact ⟨rfl, rfl, rfl⟩
  · exact Except.noConfusion h

theorem process_line_ok_inv {raw : PyStr} {n : Nat} {st st2 : ParseState}
    (h : process_line raw n st = .ok st2) :
    (StInv st → StInv st2) ∧
    ((st.charger_to_station.map fun q => q.1).Nodup →
      (st2.charger_to_station.map fun q => q.1).Nodup) := by
  unfold process_line at h
  dsimp only at h
  by_cases h1 : strip raw = []
  · rw [if_pos h1] at h
    injection h with hst2; subst hst2; exact ⟨id, id⟩
  · rw [if_neg h1] at h
    by_cases h2 : strip raw = "[Stations]".data
    · rw [if_pos h2] at h
      injection h with hst2; subst hst2; exact ⟨id, id⟩
    · rw [if_neg h2] at h
      by_cases h3 : strip raw = "[Charger Availability Reports]".data
      · rw [if_pos h3] at h
        injection h with hst2; subst hst2; exact ⟨id, id⟩
      · rw [if_neg h3] at h
        by_cases h4 : st.current_section = some "stations"
        · rw [if_pos h4] at h
          obtain ⟨-, -, ha, hb⟩ := process_station_line_ok h
          exact ⟨ha, hb⟩
        · rw [if_neg h4] at h
          by_cases h5 : st.current_section = some "reports"
          · rw [if_pos h5] at h
            obtain ⟨ha1, ha2, -⟩ := process_report_line_ok h
            constructor
            · intro hinv
              unfold StInv at hinv ⊢
              rw [ha1, ha2]
              exact hinv
            · intro hnd
              rw [ha2]
              exact hnd
          · rw [if_neg h5] at h
            by_cases h6 : st.current_section = none
            · rw [if_pos h6] at h
              exact Except.noConfusion h
            · rw [if_neg h6] at h
              injection h with hst2; subst hst2; exact ⟨id, id⟩

theorem parse_loop_inv {lines : List PyStr} :
    ∀ {n : Nat} {st st2 : ParseState},
    parse_loop lines n st = .ok st2 → StInv st →
    (st.charger_to_station.map fun q => q.1).Nodup →
    StInv st2 ∧ (st2.charger_to_station.map fun q => q.1).Nodup := by
  induction lines with
  | nil =>
    intro n st st2 h h1 h2
    simp only [parse_loop] at h
    injection h with h3
    subst h3
    exact ⟨h1, h2⟩
  | cons l ls ih =>
    intro n st st2 h h1 h2
    simp only [parse_loop] at h
    cases hpl : process_line l n st with
    | error e => rw [hpl] at h; exact Except.noConfusion h
    | ok stm =>
      rw [hpl] at h
      dsimp only at h
      obtain ⟨ha, hb⟩ := process_line_ok_inv hpl
      exact ih h (ha h1) (hb h2)

/-- Claim C5: a charger id repeated anywhere in the Stations section —
also across two different stations — is rejected with a duplicate-charger
error: a successful parse always has globally distinct charger ids, and
reusing charger 1001 under a second station yields the duplicate-charger
error naming it. -/
theorem duplicate_charger_rejected :
    (∀ (lines : List PyStr) (s : List (Int × List Int)) (r : List Report),
      parse_input_lines lines = .ok (s, r) → (allChargers s).Nodup) ∧
    parse_input_lines ["[Stations]".data, "0 1001 1002".data, "1 1001".data] =
      .error "Duplicate charger ID 1001 at line 3" := by
  constructor
  · intro lines s r hok
    unfold parse_input_lines at hok
    cases hloop : parse_loop lines 1 initState with
    | error e => rw [hloop] at hok; exact Except.noConfusion hok
    | ok st =>
      rw [hloop] at hok
      dsimp only at hok
      split at hok
      · exact Except.noConfusion hok
      · injection hok with hpair
        rw [Prod.ext_iff] at hpair
        obtain ⟨h1, h2⟩ := hpair
        dsimp only at h1 h2
        obtain ⟨hinv, hnd⟩ := parse_loop_inv hloop rfl (by simp [initState])
        rw [← h1, ← hinv]
        exact hnd
  · rfl

/-- Witness for C5's universal part at the successfully parsed demo file. -/
theorem duplicate_charger_rejected_witness :
    (allChargers [((0:Int), [1001, 1002]), (1, [1003])]).Nodup :=
  duplicate_charger_rejected.1
    ["[Stations]".data, "0 1001 1002".data, "1 1003".data]
    [(0, [1001, 1002]), (1, [1003])] [] (by rfl)

/-- Claim C6: an input declaring zero stations is rejected (empty file,
reports-only file), and a successful parse always returns at least one
station. -/
theorem zero_stations_rejected :
    (∀ (lines : List PyStr) (s : List (Int × List Int)) (r : List Report),
      parse_input_lines lines = .ok (s, r) → s ≠ []) ∧
    (∀ (lines : List PyStr) (st : ParseState),
      parse_loop lines 1 initState = .ok st → st.stations = [] →
      parse_input_lines lines = .error "No stations defined in input file") ∧
    parse_input_lines [] = .error "No stations defined in input file" ∧
    parse_input_lines ["[Charger Availability Reports]".data] =
      .error "No stations defined in input file" := by
  refine ⟨?_, ?_, rfl, rfl⟩
  · intro lines s r hok
    unfold parse_input_lines at hok
    cases hloop : parse_loop lines 1 initState with
    | error e => rw [hloop] at hok; exact Except.noConfusion hok
    | ok st =>
      rw [hloop] at hok
      dsimp only at hok
      split at hok
      · exact Except.noConfusion hok
      · rename_i hne
        injection hok with hpair
        rw [Prod.ext_iff] at hpair
        obtain ⟨h1, -⟩ := hpair
        dsimp only at h1
        rw [← h1]
        exact hne
  · intro lines st hloop hempty
    unfold parse_input_lines
    rw [hloop]
    dsimp only
    rw [if_pos hempty]

/-- Witness for C6's universal part at the demo file. -/
theorem zero_stations_rejected_witness :
    ([((0:Int), [1001, 1002]), (1, [1003])] : List (Int × List Int)) ≠ [] :=
  zero_stations_rejected.1
    ["[Stations]".data, "0 1001 1002".data, "1 1003".data]
    [(0, [1001, 1002]), (1, [1003])] [] (by rfl)

theorem mentionsLine_append (a b : String) (n : Nat) :
    mentionsLine (a ++ ("line " ++ toString n) ++ b) n := by
  unfold mentionsLine
  rw [String.data_append, String.data_append]
  exact List.infix_append _ _ _

theorem mentionsLine_suffix (a : String) (n : Nat) :
    mentionsLine (a ++ ("line " ++ toString n)) n := by
  unfold mentionsLine
  rw [String.data_append]
  exact (List.suffix_append _ _).isInfix

theorem process_charger_tokens_err {n : Nat} {sidv : Int} :
    ∀ {ts : List PyStr} {cmap : List (Int × Int)} {e : String},
    process_charger_tokens n sidv ts cmap = .error e → mentionsLine e n := by
  intro ts
  induction ts with
  | nil => intro cmap e h; exact Except.noConfusion h
  | cons t ts ih =>
    intro cmap e h
    simp only [process_charger_tokens] at h
    cases hst : str_to_int? t with
    | none =>
      rw [hst] at h
      injection h with he
      subst he
      exact mentionsLine_suffix _ _
    | some cid =>
      rw [hst] at h
      dsimp only at h
      split at h
      · injection h with he; subst he; exact mentionsLine_suffix _ _
      · split at h
        · injection h with he; subst he; exact mentionsLine_suffix _ _
        · cases hrec : process_charger_tokens n sidv ts (cmap ++ [(cid, sidv)]) with
          | error e2 =>
            rw [hrec] at h
            dsimp only at h
            injection h with he
            subst he
            exact ih hrec
          | ok pr =>
            obtain ⟨cmap2x, idsx⟩ := pr
            rw [hrec] at h
            exact Except.noConfusion h

theorem process_station_line_err {parts : List PyStr} {n : Nat} {st : ParseState}
    {e : String} (h : process_station_line parts n st = .error e) :
    mentionsLine e n := by
  cases parts with
  | nil =>
    simp only [process_station_line] at h
    injection h with he; subst he; exact mentionsLine_suffix _ _
  | cons p0 rest =>
    simp only [process_station_line] at h
    cases hst : str_to_int? p0 with
    | none =>
      rw [hst] at h
      injection h with he; subst he; exact mentionsLine_suffix _ _
    | some sid =>
      rw [hst] at h
      dsimp only at h
      split at h
      · injection h with he; subst he; exact mentionsLine_suffix _ _
      · cases hrec : process_charger_tokens n sid rest st.charger_to_station with
        | error e2 =>
          rw [hrec] at h
          dsimp only at h
          injection h with he
          subst he
          exact process_charger_tokens_err hrec
        | ok pr =>
          obtain ⟨cmap2, ids⟩ := pr
          rw [hrec] at h
          dsimp only at h
          split at h
          · injection h with he; subst he; exact mentionsLine_suffix _ _
          · exact Except.noConfusion h

theorem process_report_line_err {parts : List PyStr} {n : Nat} {st : ParseState}
    {e : String} (h : process_report_line parts n st = .error e) :
    mentionsLine e n := by
  rcases parts with _ | ⟨p0, _ | ⟨p1, _ | ⟨p2, _ | ⟨p3, _ | ⟨p4, ps⟩⟩⟩⟩⟩
  · simp only [process_report_line] at h
    injection h with he; subst he; exact mentionsLine_append _ _ _
  · simp only [process_report_line] at h
    injection h with he; subst he; exact mentionsLine_append _ _ _
  · simp only [process_report_line] at h
    injection h with he; subst he; exact mentionsLine_append _ _ _
  · simp only [process_report_line] at h
    injection h with he; subst he; exact mentionsLine_append _ _ _
  · simp only [process_report_line] at h
    cases h0 : str_to_int? p0 with
    | none =>
      rw [h0] at h
      injection h with he; subst he; exact mentionsLine_suffix _ _
    | some c =>
      rw [h0] at h
      dsimp only at h
      cases h1 : str_to_int? p1 with
      | none =>
        rw [h1] at h
        injection h with he; subst he; exact mentionsLine_suffix _ _
      | some sv =>
        rw [h1] at h
        dsimp only at h
        cases h2 : str_to_int? p2 with
        | none =>
          rw [h2] at h
          injection h with he; subst he; exact mentionsLine_suffix _ _
        | some ev =>
          rw [h2] at h
          dsimp only at h
          repeat' split at h
          all_goals
            first
              | exact Except.noConfusion h
              | (injection h with he; subst he;
                  first
                    | exact mentionsLine_suffix _ _
                    | exact mentionsLine_append _ _ _)
  · simp only [process_report_line] at h
    injection h with he; subst he; exact mentionsLine_append _ _ _

theorem process_line_err {raw : PyStr} {n : Nat} {st : ParseState} {e : String}
    (h : process_line raw n st = .error e) : mentionsLine e n := by
  unfold process_line at h
  dsimp only at h
  by_cases h1 : strip raw = []
  · rw [if_pos h1] at h; exact Except.noConfusion h
  · rw [if_neg h1] at h
    by_cases h2 : strip raw = "[Stations]".data
    · rw [if_pos h2] at h; exact Except.noConfusion h
    · rw [if_neg h2] at h
      by_cases h3 : strip raw = "[Charger Availability Reports]".data
      · rw [if_pos h3] at h; exact Except.noConfusion h
      · rw [if_neg h3] at h
        by_cases h4 : st.current_section = some "stations"
        · rw [if_pos h4] at h
          exact process_station_line_err h
        · rw [if_neg h4] at h
          by_cases h5 : st.current_section = some "reports"
          · rw [if_pos h5] at h
            exact process_report_line_err h
          · rw [if_neg h5] at h
            by_cases h6 : st.current_section = none
            · rw [if_pos h6] at h
              injection h with he; subst he; exact mentionsLine_suffix _ _
            · rw [if_neg h6] at h
              exact Except.noConfusion h

theorem parse_loop_err_split {lines : List PyStr} :
    ∀ {n : Nat} {st : ParseState} {e : String},
    parse_loop lines n st = .error e →
    ∃ (pre rest : List PyStr) (raw : PyStr) (st2 : ParseState),
      lines = pre ++ raw :: rest ∧
      parse_loop pre n st = .ok st2 ∧
      process_line raw (n + pre.length) st2 = .error e ∧
      mentionsLine e (n + pre.length) := by
  induction lines with
  | nil => intro n st e h; exact Except.noConfusion h
  | cons l ls ih =>
    intro n st e h
    simp only [parse_loop] at h
    cases hpl : process_line l n st with
    | error e2 =>
      rw [hpl] at h
      dsimp only at h
      injection h with he
      subst he
      refine ⟨[], ls, l, st, rfl, rfl, ?_, ?_⟩
      · simpa using hpl
      · simpa using process_line_err hpl
    | ok stm =>
      rw [hpl] at h
      dsimp only at h
      obtain ⟨pre, rest, raw, st2, h1, h2, h3, h4⟩ := ih h
      have hlen : n + (l :: pre).length = n + 1 + pre.length := by
        simp only [List.length_cons]
        omega
      refine ⟨l :: pre, rest, raw, st2, by rw [h1]; rfl, ?_, ?_, ?_⟩
      · simp only [parse_loop]
        rw [hpl]
        exact h2
      · rw [hlen]
        exact h3
      · rw [hlen]
        exact h4

/-- Claim C7 (amended): every error raised while processing a data line
reports the 1-based number of that offending line — the failing run
splits the file as `pre ++ raw :: rest` where processing `raw`, the line
numbered `pre.length + 1`, in the state reached after `pre`, produced
exactly this error, and the message mentions exactly that number — while
the whole-file check for an empty Stations section raises "No stations
defined in input file" with no line number (file-access errors, also
line-less, are I/O and outside the embedding). -/
theorem parse_errors_report_offending_line (lines : List PyStr) (e : String)
    (h : parse_input_lines lines = .error e) :
    e = "No stations defined in input file" ∨
      ∃ (pre rest : List PyStr) (raw : PyStr) (st : ParseState),
        lines = pre ++ raw :: rest ∧
        parse_loop pre 1 initState = .ok st ∧
        process_line raw (pre.length + 1) st = .error e ∧
        mentionsLine e (pre.length + 1) := by
  unfold parse_input_lines at h
  cases hloop : parse_loop lines 1 initState with
  | error e2 =>
    rw [hloop] at h
    dsimp only at h
    injection h with he
    subst he
    obtain ⟨pre, rest, raw, st2, h1, h2, h3, h4⟩ := parse_loop_err_split hloop
    have hlen : pre.length + 1 = 1 + pre.length := by omega
    refine Or.inr ⟨pre, rest, raw, st2, h1, h2, ?_, ?_⟩
    · rw [hlen]
      exact h3
    · rw [hlen]
      exact h4
  | ok st =>
    rw [hloop] at h
    dsimp only at h
    split at h
    · injection h with he
      exact Or.inl he.symm
    · exact Except.noConfusion h

/-- Witness for C7's amended theorem at a file whose second line is data
before falling out of the Stations section: the error names line 2, the
offending line's own number. -/
theorem parse_errors_report_offending_line_witness :
    "Invalid integer at line 2" = "No stations defined in input file" ∨
      ∃ (pre rest : List PyStr) (raw : PyStr) (st : ParseState),
        ["[Stations]".data, "0 abc".data] = pre ++ raw :: rest ∧
        parse_loop pre 1 initState = .ok st ∧
        process_line raw (pre.length + 1) st = .error "Invalid integer at line 2" ∧
        mentionsLine "Invalid integer at line 2" (pre.length + 1) :=
  parse_errors_report_offending_line ["[Stations]".data, "0 abc".data] _ (by rfl)

/-- Counterexample to C7 as stated: the empty-Stations-section error
carries no line number at all. -/
theorem parse_error_line_cex :
    parse_input_lines ["[Stations]".data] =
      .error "No stations defined in input file" ∧
    ¬ ∃ n : Nat, mentionsLine "No stations defined in input file" n := by
  constructor
  · rfl
  · rintro ⟨n, hn⟩
    unfold mentionsLine at hn
    obtain ⟨s, t, hst⟩ := hn
    have hsub : "line ".data <:+: "No stations defined in input file".data := by
      refine ⟨s, (toString n).data ++ t, ?_⟩
      rw [← hst, String.data_append]
      simp [List.append_assoc]
    exact absurd hsub (by decide)

theorem process_report_line_ok_iff {cs ss es us : PyStr} {n : Nat}
    {st : ParseState} {c sv ev : Int}
    (hinv : StInv st)
    (hc : str_to_int? cs = some c) (hs : str_to_int? ss = some sv)
    (he : str_to_int? es = some ev)
    (hc1 : 0 ≤ c) (hc2 : c ≤ UINT32_MAX)
    (hs1 : 0 ≤ sv) (hs2 : sv ≤ UINT64_MAX)
    (he1 : 0 ≤ ev) (he2 : ev ≤ UINT64_MAX)
    (hup : lowerStr us = "true".data ∨ lowerStr us = "false".data)
    (hlt : sv < ev) :
    (∃ st2, process_report_line [cs, ss, es, us] n st = .ok st2) ↔
      c ∈ allChargers st.stations := by
  have hkey : hasKey st.charger_to_station c = true ↔ c ∈ allChargers st.stations := by
    rw [hasKey_iff, hinv]
  have hcr : ¬ (c < 0 ∨ c > UINT32_MAX) := by
    unfold UINT32_MAX at hc2 ⊢
    omega
  have hsr : ¬ (sv < 0 ∨ sv > UINT64_MAX) := by
    unfold UINT64_MAX at hs2 ⊢
    omega
  have her : ¬ (ev < 0 ∨ ev > UINT64_MAX) := by
    unfold UINT64_MAX at he2 ⊢
    omega
  have hlt2 : ¬ sv ≥ ev := by omega
  rcases hup with hu | hu
  · have hstep : process_report_line [cs, ss, es, us] n st =
        if ¬ hasKey st.charger_to_station c then
          .error ("Unknown charger ID " ++ toString c ++ " at " ++
            ("line " ++ toString n))
        else .ok { st with reports := st.reports ++ [(c, sv, ev, true)] } := by
      simp only [process_report_line]
      rw [hc, hs, he]
      dsimp only
      rw [if_neg hcr, if_neg hsr, if_neg her, hu, if_pos rfl]
      dsimp only
      rw [if_neg hlt2]
    rw [hstep]
    by_cases hk : hasKey st.charger_to_station c = true
    · rw [if_neg (not_not_intro hk)]
      exact iff_of_true ⟨_, rfl⟩ (hkey.mp hk)
    · rw [if_pos hk]
      constructor
      · rintro ⟨st2, hok⟩
        exact Except.noConfusion hok
      · intro hmem
        exact absurd (hkey.mpr hmem) hk
  · have hstep : process_report_line [cs, ss, es, us] n st =
        if ¬ hasKey st.charger_to_station c then
          .error ("Unknown charger ID " ++ toString c ++ " at " ++
            ("line " ++ toString n))
        else .ok { st with reports := st.reports ++ [(c, sv, ev, false)] } := by
      simp only [process_report_line]
      rw [hc, hs, he]
      dsimp only
      rw [if_neg hcr, if_neg hsr, if_neg her, hu]
      rw [if_neg (show ¬ ("false".data : PyStr) = "true".data by decide), if_pos rfl]
      dsimp only
      rw [if_neg hlt2]
    rw [hstep]
    by_cases hk : hasKey st.charger_to_station c = true
    · rw [if_neg (not_not_intro hk)]
      exact iff_of_true ⟨_, rfl⟩ (hkey.mp hk)
    · rw [if_pos hk]
      constructor
      · rintro ⟨st2, hok⟩
        exact Except.noConfusion hok
      · intro hmem
        exact absurd (hkey.mpr hmem) hk

/-- Claim C10: the parser does not require the Stations section to close
before reports begin — headers may repeat and interleave, a `[Stations]`
header after report lines switches back and later station lines are
accepted — and an otherwise well-formed report line succeeds exactly when
its charger id was declared on some station line processed earlier
(`StInv` ties the lookup dict to the declared stations and is preserved
line by line from the initial state). -/
theorem sections_interleave :
    parse_input_lines ["[Stations]".data, "0 1001".data,
        "[Charger Availability Reports]".data, "1001 0 100 true".data,
        "[Stations]".data, "1 1002".data,
        "[Charger Availability Reports]".data, "1002 50 100 false".data] =
      .ok ([(0, [1001]), (1, [1002])],
        [(1001, 0, 100, true), (1002, 50, 100, false)]) ∧
    StInv initState ∧
    (∀ (raw : PyStr) (n : Nat) (st st2 : ParseState),
      process_line raw n st = .ok st2 → StInv st → StInv st2) ∧
    (∀ (cs ss es us : PyStr) (n : Nat) (st : ParseState) (c sv ev : Int),
      StInv st →
      str_to_int? cs = some c → str_to_int? ss = some sv →
      str_to_int? es = some ev →
      0 ≤ c → c ≤ UINT32_MAX → 0 ≤ sv → sv ≤ UINT64_MAX →
      0 ≤ ev → ev ≤ UINT64_MAX →
      (lowerStr us = "true".data ∨ lowerStr us = "false".data) → sv < ev →
      ((∃ st2, process_report_line [cs, ss, es, us] n st = .ok st2) ↔
        c ∈ allChargers st.stations)) := by
  refine ⟨by rfl, rfl, ?_, ?_⟩
  · intro raw n st st2 hok hinv
    exact (process_line_ok_inv hok).1 hinv
  · intro cs ss es us n st c sv ev hinv hc hs he hc1 hc2 hs1 hs2 he1 he2 hup hlt
    exact process_report_line_ok_iff hinv hc hs he hc1 hc2 hs1 hs2 he1 he2 hup hlt

/-- Witness for C10's report-line characterisation at a concrete mid-parse
state that has station 0 with charger 1001 declared. -/
theorem sections_interleave_witness :
    (∃ st2, process_report_line ["1001".data, "0".data, "10".data, "true".data] 4
        ⟨[(0, [1001])], [], some "reports", [(1001, 0)]⟩ = .ok st2) ↔
      (1001 : Int) ∈ allChargers [((0:Int), [1001])] :=
  sections_interleave.2.2.2 "1001".data "0".data "10".data "true".data 4
    ⟨[(0, [1001])], [], some "reports", [(1001, 0)]⟩ 1001 0 10
    (by rfl) (by rfl) (by rfl) (by rfl) (by decide) (by decide) (by decide)
    (by decide) (by decide) (by decide) (Or.inl (by decide)) (by decide)

end StationUptime
